import Mathlib

set_option linter.unusedSectionVars false

/-!
Shallow embedding of `cdillond/go-lru` (`src/lru.go`) and proofs about it.

The Go cache is

```
type node[K comparable, V any] struct { next, last int; key K; val V }
type Cache[K comparable, V any] struct {
  m sync.Mutex; len int; head, tail int; cap uint64
  evict func(K, V) error
  data []node[K, V]
  keys map[K]int
}
```

Modelling decisions:
* Go `int`/`uint64` indices become `Nat` (all index values in the program are
  non-negative; overflow is unreachable at the sizes involved).
* the Go map `keys map[K]int` becomes an association list `List (K × Nat)`
  with lookup/insert/erase operations (`lookupKV`, `insertKV`, `eraseKV`);
  a well-formed state keeps key-distinctness, matching a Go map.
* `error` becomes `Option E` for an abstract error type `E` (`none` = `nil`);
  the `errors.Join` accumulation in `Clear` is modelled as the ordered list of
  the non-`nil` errors produced (`[]` = `nil` aggregate), which preserves each
  individual failure's identity exactly as a multi-error join does.
* the eviction callback `func(K, V) error` becomes `Option (K → V → Option E)`;
  since a Lean function is pure, callback *invocations* are additionally
  recorded in an explicit trace `List (K × V)` returned by `Put`/`Clear`.
* every slice access `c.data[i]` (and slicing `c.data[:c.len]`) is
  bounds-checked: the operations are `Option`-valued and return `none`
  exactly when Go would panic with an out-of-range index.
* the mutex serialises all public operations; the embedding models the
  resulting sequential behaviour (each operation is one atomic state
  transition).
-/

namespace GoLru

/-- Go `node[K, V]`: `next` points toward the tail (LRU) direction,
`last` toward the head (MRU) direction. -/
structure Node (K V : Type) where
  next : Nat
  last : Nat
  key : K
  val : V
  deriving Repr, DecidableEq

instance (K V : Type) [Inhabited K] [Inhabited V] : Inhabited (Node K V) :=
  ⟨⟨0, 0, default, default⟩⟩

/-- Go `Cache[K, V]` (minus the mutex, which only serialises calls).
`E` is the abstract `error` type. -/
structure Cache (K V E : Type) where
  len : Nat
  head : Nat
  tail : Nat
  cap : Nat
  evict : Option (K → V → Option E)
  data : List (Node K V)
  keys : List (K × Nat)

variable {K V E : Type} [DecidableEq K] [Inhabited K] [Inhabited V]

/-- Go map read `i, ok := c.keys[key]`. -/
def lookupKV (k : K) : List (K × Nat) → Option Nat
  | [] => none
  | p :: t => if p.1 = k then some p.2 else lookupKV k t

/-- Go map write `c.keys[key] = i` (replace the binding if present, else add). -/
def insertKV (k : K) (i : Nat) : List (K × Nat) → List (K × Nat)
  | [] => [(k, i)]
  | p :: t => if p.1 = k then (k, i) :: t else p :: insertKV k i t

/-- Go `delete(c.keys, key)`. -/
def eraseKV (k : K) : List (K × Nat) → List (K × Nat)
  | [] => []
  | p :: t => if p.1 = k then t else p :: eraseKV k t

/-- Bounds-checked slice read `c.data[i]` (Go panics out of range; we return
`none`). -/
def read? (d : List (Node K V)) (i : Nat) : Option (Node K V) :=
  d.get? i

/-- Bounds-checked slice write `c.data[i] = n`. -/
def write? (d : List (Node K V)) (i : Nat) (n : Node K V) :
    Option (List (Node K V)) :=
  if i < d.length then some (d.set i n) else none

/-- Go `New(cap, evict)`: `make([]node[K,V], cap)` zero-initialises the slot
array; the map starts empty; `len`, `head`, `tail` start at `0`. -/
def newCache (cap : Nat) (evict : Option (K → V → Option E)) : Cache K V E :=
  { len := 0, head := 0, tail := 0, cap := cap, evict := evict
    data := List.replicate cap default, keys := [] }

/-- Go `(*Cache).promote(i)`, translated statement by statement. `ptr` is a
pointer into the array; a field of `ptr` is re-read from the current array at
any use that a prior write could have aliased (before the splice writes, only
`.next` fields change, and a same-value write at that, so `nd.last`/`nd.next`
read up front still denote `ptr.last`/`ptr.next` at their Go read sites;
`ptr.next = c.head` and `c.data[c.head].last = i` re-read the written array). -/
def promote? (c : Cache K V E) (i : Nat) : Option (Cache K V E) :=
  (read? c.data i).bind fun nd =>              -- ptr := &c.data[i]
  if i = c.head then
    some c                                     -- already at the front
  else
    (if i = c.tail then
      some { c with tail := nd.last }          -- c.tail = ptr.last
    else
      (read? c.data nd.last).bind fun a =>     -- c.data[ptr.last].next = ptr.next
      (write? c.data nd.last { a with next := nd.next }).bind fun d1 =>
      (read? d1 nd.next).bind fun b =>         -- c.data[ptr.next].last = ptr.last
      (write? d1 nd.next { b with last := nd.last }).bind fun d2 =>
      some { c with data := d2 }).bind fun c1 =>
    (read? c1.data i).bind fun p =>            -- ptr.next = c.head
    (write? c1.data i { p with next := c1.head }).bind fun d3 =>
    (read? d3 c1.head).bind fun h =>           -- c.data[c.head].last = i
    (write? d3 c1.head { h with last := i }).bind fun d4 =>
    some { c1 with data := d4, head := i }     -- c.head = i

/-- Go `(*Cache).Get(key)`: the returned triple is
(returned value, found flag, cache state after the call);
`*new(V)` is the zero value, modelled by `default`. -/
def getOp? (c : Cache K V E) (key : K) : Option (V × Bool × Cache K V E) :=
  match lookupKV key c.keys with
  | some i =>
      (read? c.data i).bind fun nd =>
      (promote? c i).map fun c' =>
      (nd.val, true, c')
  | none => some (default, false, c)

/-- Apply the stored eviction callback, Go `if c.evict != nil { err = c.evict(k, v) }`. -/
def callEvict (c : Cache K V E) (k : K) (v : V) : Option E :=
  match c.evict with
  | some f => f k v
  | none => none

/-- Callback-invocation trace of one potential invocation site: the pairs the
callback is actually called with (empty when `c.evict` is `nil`). -/
def evictTrace (c : Cache K V E) (k : K) (v : V) : List (K × V) :=
  match c.evict with
  | some _ => [(k, v)]
  | none => []

/-- Go `(*Cache).Put(key, val)`: the returned triple is
(cache state after the call, returned error, callback-invocation trace). -/
def put? (c : Cache K V E) (key : K) (val : V) :
    Option (Cache K V E × Option E × List (K × V)) :=
  if c.cap = 0 then
    some (c, none, [])
  else
    match lookupKV key c.keys with
    | some i =>
        -- key cached: just update the val and move to front
        (read? c.data i).bind fun nd =>
        (write? c.data i { nd with val := val }).bind fun d =>
        (promote? { c with data := d } i).map fun c' =>
        (c', none, [])
    | none =>
      if c.len < c.cap then
        -- room available: take the highest unused slot
        (write? c.data c.len
            { next := c.head, last := 0, key := key, val := val }).bind fun d1 =>
        (read? d1 c.head).bind fun h =>
        (write? d1 c.head { h with last := c.len }).map fun d2 =>
        ({ c with data := d2, head := c.len,
                  keys := insertKV key c.len c.keys,
                  len := c.len + 1 }, none, [])
      else
        -- full: take from the tail
        (read? c.data c.tail).bind fun victim =>
        (write? c.data c.tail { victim with key := key, val := val }).bind fun d =>
        (promote?
            { c with data := d
                     keys := insertKV key c.tail (eraseKV victim.key c.keys) }
            c.tail).map fun c' =>
        (c', callEvict c victim.key victim.val,
             evictTrace c victim.key victim.val)

/-- The loop body accumulation of Go `Clear`:
`for _, n := range c.data[:c.len] { err = errors.Join(err, c.evict(n.key, n.val)) }`,
with the joined error modelled as the list of non-`nil` errors so far. -/
def clearLoop (f : K → V → Option E) : List E → List (Node K V) → List E
  | acc, [] => acc
  | acc, n :: t => clearLoop f (acc ++ (f n.key n.val).toList) t

/-- Go `(*Cache).Clear()`: the returned triple is
(cache state after the call, aggregated errors, callback-invocation trace).
`clear(c.data[:c.len])` zeroes the first `len` slots; `clear(c.keys)` empties
the map; `head` and `tail` are not touched. The slicing `c.data[:c.len]`
carries Go's bounds check `c.len ≤ len(c.data)`. -/
def clear? (c : Cache K V E) :
    Option (Cache K V E × List E × List (K × V)) :=
  if c.len ≤ c.data.length then
    let active := c.data.take c.len
    let errs := match c.evict with
      | some f => clearLoop f [] active
      | none => []
    let calls := match c.evict with
      | some _ => active.map (fun n => (n.key, n.val))
      | none => []
    some ({ c with data := List.replicate c.len default ++ c.data.drop c.len,
                   keys := [], len := 0 }, errs, calls)
  else
    none

/-- Go `(*Cache).All()`: the loop over `c.data[:c.len]` driven by a consumer
`yield`; returns the list of pairs passed to `yield`, stopping after the first
pair on which `yield` returns `false`. -/
def allLoop (yield : K → V → Bool) : List (Node K V) → List (K × V)
  | [] => []
  | n :: t =>
      if yield n.key n.val then (n.key, n.val) :: allLoop yield t
      else [(n.key, n.val)]

/-- Go `(*Cache).All()` consumed by `yield` (bounds check from `c.data[:c.len]`). -/
def all? (c : Cache K V E) (yield : K → V → Bool) : Option (List (K × V)) :=
  if c.len ≤ c.data.length then some (allLoop yield (c.data.take c.len))
  else none

/-- The loop of Go `(*Cache).Keys()`. -/
def keysLoop (yield : K → Bool) : List (Node K V) → List K
  | [] => []
  | n :: t => if yield n.key then n.key :: keysLoop yield t else [n.key]

/-- Go `(*Cache).Keys()` consumed by `yield`. -/
def keys? (c : Cache K V E) (yield : K → Bool) : Option (List K) :=
  if c.len ≤ c.data.length then some (keysLoop yield (c.data.take c.len))
  else none

/-- The loop of Go `(*Cache).Values()`. -/
def valuesLoop (yield : V → Bool) : List (Node K V) → List V
  | [] => []
  | n :: t => if yield n.val then n.val :: valuesLoop yield t else [n.val]

/-- Go `(*Cache).Values()` consumed by `yield`. -/
def values? (c : Cache K V E) (yield : V → Bool) : Option (List V) :=
  if c.len ≤ c.data.length then some (valuesLoop yield (c.data.take c.len))
  else none

/-- One public mutating operation. -/
inductive Op (K V : Type) where
  | get : K → Op K V
  | put : K → V → Op K V
  | clear : Op K V

/-- The state transition of one public operation (`none` = a Go panic). -/
def step? (c : Cache K V E) : Op K V → Option (Cache K V E)
  | .get k => (getOp? c k).map (fun r => r.2.2)
  | .put k v => (put? c k v).map (fun r => r.1)
  | .clear => (clear? c).map (fun r => r.1)

/-- Run a sequence of public operations. -/
def run? (c : Cache K V E) : List (Op K V) → Option (Cache K V E)
  | [] => some c
  | op :: t => (step? c op).bind (fun c' => run? c' t)

/-! ### The well-formedness invariant, and concrete states used in witnesses -/

/-- All recency links stored in the slots are in-range indices. -/
def linksBound (cap : Nat) (d : List (Node K V)) : Prop :=
  ∀ nd ∈ d, nd.next < cap ∧ nd.last < cap

/-- The key stored in slot `i` (`default` out of range; only used in range). -/
def keyAt (d : List (Node K V)) (i : Nat) : K :=
  ((d.get? i).getD default).key

/-- Well-formedness of a cache state: the slot array has exactly `cap` slots,
at most `cap` of them are active, the key index is in lockstep with the active
slots (`|keys| = len`; every binding points into `[0, len)` at a slot holding
that key; every active slot's key is bound to that slot; bindings have
distinct keys), and `head`, `tail` and every stored link are in-range slot
indices whenever the capacity is non-zero. -/
def WF (c : Cache K V E) : Prop :=
  c.data.length = c.cap ∧
  c.len ≤ c.cap ∧
  c.keys.length = c.len ∧
  (c.cap = 0 ∨ c.head < c.cap) ∧
  (c.cap = 0 ∨ c.tail < c.cap) ∧
  linksBound c.cap c.data ∧
  (∀ p ∈ c.keys, p.2 < c.len ∧ (c.data.get? p.2).map Node.key = some p.1) ∧
  (∀ i, i < c.len → lookupKV (keyAt c.data i) c.keys = some i) ∧
  (c.keys.map Prod.fst).Nodup

instance (c : Cache K V E) : Decidable (WF c) := by
  unfold WF linksBound keyAt
  exact inferInstance

/-- A concrete no-error eviction callback used in witnesses. -/
def noErr : Nat → Nat → Option Unit := fun _ _ => none

/-- A callback that reports a distinct error for every pair it is given. -/
def errCb : Nat → Nat → Option Nat := fun k v => some (10 * k + v)

/-- The final state of the C3 witness run
(`put(0,1); put(1,2); get(0); put(2,3)` on a fresh capacity-2 cache). -/
def cC3w : Cache Nat Nat Unit :=
  ⟨2, 1, 0, 2, none, [⟨1, 1, 0, 1⟩, ⟨0, 0, 2, 3⟩], [(0, 0), (2, 1)]⟩

/-- A concrete nonempty cache whose key index lacks the key `4`. -/
def cC7w : Cache Nat Nat Unit :=
  ⟨1, 0, 0, 2, none, [⟨0, 0, 3, 5⟩, ⟨0, 0, 0, 0⟩], [(3, 0)]⟩

/-- A full capacity-2 cache with a configured callback, holding keys `1`, `2`
(the state after `put(1,10); put(2,20)` on a fresh cache). -/
def cC5w : Cache Nat Nat Unit :=
  ⟨2, 1, 0, 2, some noErr, [⟨0, 1, 1, 10⟩, ⟨0, 0, 2, 20⟩], [(1, 0), (2, 1)]⟩

/-- A full capacity-1 cache with a configured callback, holding key `0` with
value `1` (the state after `put(0,1)` on a fresh cache). -/
def cC4w : Cache Nat Nat Unit :=
  ⟨1, 0, 0, 1, some noErr, [⟨0, 0, 0, 1⟩], [(0, 0)]⟩

/-- A capacity-2 cache with two active slots and the erroring callback
`errCb` (the state after `put(1,10); put(2,20)` on a fresh cache). -/
def cC6w : Cache Nat Nat Nat :=
  ⟨2, 1, 0, 2, some errCb, [⟨0, 1, 1, 10⟩, ⟨0, 0, 2, 20⟩], [(1, 0), (2, 1)]⟩

/-- A capacity-3 cache with two active slots (the state after
`put(7,70); put(8,80)` on a fresh cache). -/
def cC8w : Cache Nat Nat Unit :=
  ⟨2, 1, 0, 3, none, [⟨0, 1, 7, 70⟩, ⟨0, 0, 8, 80⟩, ⟨0, 0, 0, 0⟩], [(7, 0), (8, 1)]⟩

/-! ### Association-list (Go map) lemmas -/

theorem lookupKV_insert_self (k : K) (i : Nat) (m : List (K × Nat)) :
    lookupKV k (insertKV k i m) = some i := by
  induction m with
  | nil => simp [insertKV, lookupKV]
  | cons p t ih =>
      by_cases h : p.1 = k
      · simp [insertKV, lookupKV, h]
      · simp [insertKV, lookupKV, h, ih]

theorem lookupKV_insert_ne {k k' : K} (h : k' ≠ k) (i : Nat) (m : List (K × Nat)) :
    lookupKV k' (insertKV k i m) = lookupKV k' m := by
  have hkk : ¬k = k' := fun hk => h hk.symm
  induction m with
  | nil => simp [insertKV, lookupKV, hkk]
  | cons p t ih =>
      by_cases hp : p.1 = k
      · subst hp
        simp [insertKV, lookupKV, hkk]
      · simp [insertKV, lookupKV, hp, ih]

theorem lookupKV_eq_none_iff (k : K) (m : List (K × Nat)) :
    lookupKV k m = none ↔ k ∉ m.map Prod.fst := by
  induction m with
  | nil => simp [lookupKV]
  | cons p t ih =>
      by_cases h : p.1 = k
      · simp [lookupKV, h]
      · simp [lookupKV, h, ih, Ne.symm h]

theorem lookupKV_mem {k : K} {i : Nat} {m : List (K × Nat)}
    (h : lookupKV k m = some i) : (k, i) ∈ m := by
  induction m with
  | nil => simp [lookupKV] at h
  | cons p t ih =>
      by_cases hp : p.1 = k
      · simp [lookupKV, hp] at h
        subst hp h
        exact List.mem_cons_self _ _
      · simp [lookupKV, hp] at h
        exact List.mem_cons_of_mem _ (ih h)

theorem mem_eraseKV {p : K × Nat} {k : K} {m : List (K × Nat)}
    (h : p ∈ eraseKV k m) : p ∈ m := by
  induction m with
  | nil => simp [eraseKV] at h
  | cons q t ih =>
      by_cases hq : q.1 = k
      · simp [eraseKV, hq] at h
        exact List.mem_cons_of_mem _ h
      · simp only [eraseKV, hq, if_false, List.mem_cons] at h
        rcases h with h | h
        · exact h ▸ List.mem_cons_self _ _
        · exact List.mem_cons_of_mem _ (ih h)

theorem map_fst_eraseKV_sublist (k : K) (m : List (K × Nat)) :
    ((eraseKV k m).map Prod.fst).Sublist (m.map Prod.fst) := by
  induction m with
  | nil => simp [eraseKV]
  | cons q t ih =>
      by_cases hq : q.1 = k
      · simpa [eraseKV, hq] using List.sublist_cons_self _ _
      · simpa [eraseKV, hq] using ih.cons₂ q.1

theorem nodup_fst_eraseKV {k : K} {m : List (K × Nat)}
    (h : (m.map Prod.fst).Nodup) : ((eraseKV k m).map Prod.fst).Nodup :=
  (map_fst_eraseKV_sublist k m).nodup h

theorem lookupKV_erase_self {k : K} {m : List (K × Nat)}
    (h : (m.map Prod.fst).Nodup) : lookupKV k (eraseKV k m) = none := by
  induction m with
  | nil => simp [eraseKV, lookupKV]
  | cons q t ih =>
      simp only [List.map_cons, List.nodup_cons] at h
      by_cases hq : q.1 = k
      · subst hq
        rw [eraseKV, if_pos rfl, (lookupKV_eq_none_iff _ _).mpr h.1]
      · rw [eraseKV, if_neg hq, lookupKV, if_neg hq, ih h.2]

theorem lookupKV_erase_ne {k k' : K} (h : k' ≠ k) (m : List (K × Nat)) :
    lookupKV k' (eraseKV k m) = lookupKV k' m := by
  induction m with
  | nil => simp [eraseKV]
  | cons q t ih =>
      by_cases hq : q.1 = k
      · subst hq
        rw [eraseKV, if_pos rfl, lookupKV, if_neg (fun hk => h hk.symm)]
      · by_cases hq' : q.1 = k'
        · rw [eraseKV, if_neg hq, lookupKV, if_pos hq', lookupKV, if_pos hq']
        · rw [eraseKV, if_neg hq, lookupKV, if_neg hq', lookupKV, if_neg hq', ih]

theorem length_eraseKV_of_lookup_some {k : K} {i : Nat} {m : List (K × Nat)}
    (h : lookupKV k m = some i) :
    (eraseKV k m).length + 1 = m.length := by
  induction m with
  | nil => simp [lookupKV] at h
  | cons q t ih =>
      by_cases hq : q.1 = k
      · simp [eraseKV, hq]
      · simp only [lookupKV, hq, if_false] at h
        simp [eraseKV, hq, ih h]

theorem length_insertKV_of_lookup_none {k : K} {m : List (K × Nat)}
    (h : lookupKV k m = none) (i : Nat) :
    (insertKV k i m).length = m.length + 1 := by
  induction m with
  | nil => simp [insertKV]
  | cons q t ih =>
      by_cases hq : q.1 = k
      · simp [lookupKV, hq] at h
      · simp only [lookupKV, hq, if_false] at h
        simp [insertKV, hq, ih h]

theorem insertKV_of_lookup_none {k : K} {m : List (K × Nat)}
    (h : lookupKV k m = none) (i : Nat) :
    insertKV k i m = m ++ [(k, i)] := by
  induction m with
  | nil => simp [insertKV]
  | cons q t ih =>
      by_cases hq : q.1 = k
      · simp [lookupKV, hq] at h
      · simp only [lookupKV, hq, if_false] at h
        simp [insertKV, hq, ih h]

theorem nodup_fst_insertKV_of_lookup_none {k : K} {m : List (K × Nat)}
    (hn : (m.map Prod.fst).Nodup) (h : lookupKV k m = none) (i : Nat) :
    ((insertKV k i m).map Prod.fst).Nodup := by
  rw [insertKV_of_lookup_none h]
  simp only [List.map_append, List.map_cons, List.map_nil]
  rw [List.nodup_append]
  refine ⟨hn, List.nodup_singleton _, ?_⟩
  intro a ha hb
  simp only [List.mem_singleton] at hb
  subst hb
  exact (lookupKV_eq_none_iff _ _).mp h ha

theorem mem_insertKV {p : K × Nat} {k : K} {i : Nat} {m : List (K × Nat)}
    (h : p ∈ insertKV k i m) : p = (k, i) ∨ p ∈ m := by
  induction m with
  | nil => simpa [insertKV] using h
  | cons q t ih =>
      by_cases hq : q.1 = k
      · simp only [insertKV, hq, if_pos, List.mem_cons] at h
        rcases h with h | h
        · exact Or.inl h
        · exact Or.inr (List.mem_cons_of_mem _ h)
      · simp only [insertKV, hq, if_false, List.mem_cons] at h
        rcases h with h | h
        · exact Or.inr (h ▸ List.mem_cons_self _ _)
        · rcases ih h with h' | h'
          · exact Or.inl h'
          · exact Or.inr (List.mem_cons_of_mem _ h')

/-! ### Slice access lemmas -/

theorem read?_eq_some_of_lt {d : List (Node K V)} {i : Nat} (h : i < d.length) :
    ∃ nd, read? d i = some nd ∧ nd ∈ d :=
  ⟨d.get ⟨i, h⟩, List.get?_eq_get h, List.get_mem d i h⟩

theorem write?_eq_some {d : List (Node K V)} {i : Nat} (h : i < d.length)
    (n : Node K V) : write? d i n = some (d.set i n) := by
  simp [write?, h]

theorem lt_length_of_read?_eq_some {d : List (Node K V)} {i : Nat} {x : Node K V}
    (hx : read? d i = some x) : i < d.length := by
  by_contra h
  rw [read?, List.get?_eq_none.mpr (Nat.le_of_not_lt h)] at hx
  exact Option.noConfusion hx

theorem set_preserves_kv {d : List (Node K V)} {j : Nat} {x : Node K V}
    (n : Node K V) (hx : d.get? j = some x)
    (hk : n.key = x.key) (hv : n.val = x.val) :
    ∀ m, ((d.set j n).get? m).map Node.key = (d.get? m).map Node.key ∧
         ((d.set j n).get? m).map Node.val = (d.get? m).map Node.val := by
  intro m
  by_cases hm : j = m
  · subst hm
    have hj : j < d.length := lt_length_of_read?_eq_some hx
    rw [List.get?_set_eq_of_lt _ hj, hx]
    simp [hk, hv]
  · rw [List.get?_set_ne _ _ hm]
    exact ⟨rfl, rfl⟩

theorem set_preserves_key {d : List (Node K V)} {j : Nat} {x : Node K V}
    (n : Node K V) (hx : d.get? j = some x) (hk : n.key = x.key) :
    ∀ m, ((d.set j n).get? m).map Node.key = (d.get? m).map Node.key := by
  intro m
  by_cases hm : j = m
  · subst hm
    have hj : j < d.length := lt_length_of_read?_eq_some hx
    rw [List.get?_set_eq_of_lt _ hj, hx]
    simp [hk]
  · rw [List.get?_set_ne _ _ hm]

theorem linksBound_set {cap : Nat} {d : List (Node K V)} {j : Nat} {n : Node K V}
    (hd : linksBound cap d) (h1 : n.next < cap) (h2 : n.last < cap) :
    linksBound cap (d.set j n) := by
  intro nd hnd
  rcases List.mem_or_eq_of_mem_set hnd with h | h
  · exact hd nd h
  · exact h ▸ ⟨h1, h2⟩




theorem wf_newCache (cap : Nat) (evict : Option (K → V → Option E)) :
    WF (newCache (K := K) (V := V) (E := E) cap evict) := by
  have hht : cap = 0 ∨ 0 < cap := Nat.eq_zero_or_pos cap
  refine ⟨List.length_replicate _ _, Nat.zero_le _, rfl, hht, hht, ?_, ?_, ?_, ?_⟩
  · intro nd hnd
    have hcap : 0 < cap := by
      rcases hht with h | h
      · subst h; simp [newCache, List.replicate] at hnd
      · exact h
    have hdef : nd = (default : Node K V) := List.eq_of_mem_replicate hnd
    subst hdef
    exact ⟨hcap, hcap⟩
  · intro p hp
    simp [newCache] at hp
  · intro i hi
    simp [newCache] at hi
  · simp [newCache]

/-! ### The `promote` specification -/

/-- The re-linking tail of `promote` (`ptr.next = c.head`;
`c.data[c.head].last = i`; `c.head = i`) succeeds on in-range indices and
changes no slot's key or value. -/
theorem promotePhase2 (c1 : Cache K V E) (i cap : Nat)
    (hdl : c1.data.length = cap) (hi : i < cap) (hh : c1.head < cap)
    (hl : linksBound cap c1.data) :
    ∃ d4, ((read? c1.data i).bind fun p =>
        (write? c1.data i { p with next := c1.head }).bind fun d3 =>
        (read? d3 c1.head).bind fun h =>
        (write? d3 c1.head { h with last := i }).bind fun d4 =>
        some { c1 with data := d4, head := i }) =
          some { c1 with data := d4, head := i } ∧
      d4.length = c1.data.length ∧ linksBound cap d4 ∧
      (∀ m, (d4.get? m).map Node.key = (c1.data.get? m).map Node.key) ∧
      (∀ m, (d4.get? m).map Node.val = (c1.data.get? m).map Node.val) := by
  have hi' : i < c1.data.length := by rw [hdl]; exact hi
  have hh' : c1.head < c1.data.length := by rw [hdl]; exact hh
  obtain ⟨p, hp, hpmem⟩ := read?_eq_some_of_lt hi'
  have hw3 := write?_eq_some hi' { p with next := c1.head }
  have hh3 : c1.head < (c1.data.set i { p with next := c1.head }).length := by
    rw [List.length_set]; exact hh'
  obtain ⟨h, hh4, hhmem⟩ := read?_eq_some_of_lt hh3
  have hw4 := write?_eq_some hh3 { h with last := i }
  refine ⟨(c1.data.set i { p with next := c1.head }).set c1.head
    { h with last := i }, ?_, ?_, ?_, ?_, ?_⟩
  · rw [hp, Option.some_bind, hw3, Option.some_bind, hh4, Option.some_bind,
      hw4, Option.some_bind]
  · rw [List.length_set, List.length_set]
  · refine linksBound_set (linksBound_set hl hh ((hl p hpmem).2)) ?_ hi
    have : h ∈ c1.data ∨ h = { p with next := c1.head } :=
      List.mem_or_eq_of_mem_set hhmem
    rcases this with hmem | heq
    · exact (hl h hmem).1
    · rw [heq]; exact hh
  · intro m
    exact ((set_preserves_kv { h with last := i } hh4 rfl rfl m).1).trans
      (set_preserves_kv { p with next := c1.head } hp rfl rfl m).1
  · intro m
    exact ((set_preserves_kv { h with last := i } hh4 rfl rfl m).2).trans
      (set_preserves_kv { p with next := c1.head } hp rfl rfl m).2

/-- Go `promote` succeeds on a well-formed state with an in-range argument, moves
`i` to the head, keeps `tail` in range, keeps every link in range, and changes
no slot's key or value, nor `len`, `cap`, `keys`, `evict`, or the array
length. -/
theorem promote?_spec (c : Cache K V E) (i : Nat)
    (hd : c.data.length = c.cap)
    (hi : i < c.cap) (hh : c.head < c.cap) (ht : c.tail < c.cap)
    (hlinks : linksBound c.cap c.data) :
    ∃ c', promote? c i = some c' ∧
      c'.len = c.len ∧ c'.cap = c.cap ∧ c'.keys = c.keys ∧ c'.evict = c.evict ∧
      c'.data.length = c.data.length ∧ c'.head = i ∧ c'.tail < c.cap ∧
      linksBound c.cap c'.data ∧
      (∀ m, (c'.data.get? m).map Node.key = (c.data.get? m).map Node.key) ∧
      (∀ m, (c'.data.get? m).map Node.val = (c.data.get? m).map Node.val) := by
  have hi' : i < c.data.length := by rw [hd]; exact hi
  obtain ⟨nd, hnd, hndmem⟩ := read?_eq_some_of_lt hi'
  by_cases hih : i = c.head
  · refine ⟨c, ?_, rfl, rfl, rfl, rfl, rfl, hih.symm, ht, hlinks,
      fun _ => rfl, fun _ => rfl⟩
    rw [promote?, hnd, Option.some_bind, if_pos hih]
  · by_cases hit : i = c.tail
    · -- tail case: c.tail = ptr.last, then the shared re-linking tail
      obtain ⟨d4, heq, hlen, hl4, hk4, hv4⟩ :=
        promotePhase2 { c with tail := nd.last } i c.cap hd hi hh hlinks
      refine ⟨{ c with tail := nd.last, data := d4, head := i }, ?_, rfl, rfl,
        rfl, rfl, hlen, rfl, (hlinks nd hndmem).2, hl4, hk4, hv4⟩
      rw [promote?, hnd, Option.some_bind, if_neg hih, if_pos hit,
        Option.some_bind]
      exact heq
    · -- interior case: splice out, then the shared re-linking tail
      have hnl : nd.last < c.cap := (hlinks nd hndmem).2
      have hnn : nd.next < c.cap := (hlinks nd hndmem).1
      have hnl' : nd.last < c.data.length := by rw [hd]; exact hnl
      obtain ⟨a, ha, hamem⟩ := read?_eq_some_of_lt hnl'
      have hw1 := write?_eq_some hnl' { a with next := nd.next }
      have hl1 : linksBound c.cap (c.data.set nd.last { a with next := nd.next }) :=
        linksBound_set hlinks hnn ((hlinks a hamem).2)
      have hnn' : nd.next < (c.data.set nd.last { a with next := nd.next }).length := by
        rw [List.length_set, hd]; exact hnn
      obtain ⟨b, hb, hbmem⟩ := read?_eq_some_of_lt hnn'
      have hw2 := write?_eq_some hnn' { b with last := nd.last }
      have hl2 : linksBound c.cap
          ((c.data.set nd.last { a with next := nd.next }).set nd.next
            { b with last := nd.last }) :=
        linksBound_set hl1 ((hl1 b hbmem).1) hnl
      have hdl2 : ((c.data.set nd.last { a with next := nd.next }).set nd.next
          { b with last := nd.last }).length = c.cap := by
        rw [List.length_set, List.length_set]; exact hd
      obtain ⟨d4, heq, hlen, hl4, hk4, hv4⟩ :=
        promotePhase2 { c with data := (c.data.set nd.last { a with next := nd.next }).set nd.next { b with last := nd.last } } i c.cap hdl2 hi hh hl2
      refine ⟨{ c with data := d4, head := i }, ?_, rfl, rfl, rfl, rfl, ?_,
        rfl, ht, hl4, ?_, ?_⟩
      · rw [promote?, hnd, Option.some_bind, if_neg hih, if_neg hit,
          ha, Option.some_bind, hw1, Option.some_bind, hb, Option.some_bind,
          hw2, Option.some_bind, Option.some_bind]
        exact heq
      · rw [hlen]
        show ((c.data.set nd.last { a with next := nd.next }).set nd.next
          { b with last := nd.last }).length = c.data.length
        rw [List.length_set, List.length_set]
      · intro m
        exact (hk4 m).trans (((set_preserves_kv { b with last := nd.last } hb rfl rfl m).1).trans
          (set_preserves_kv { a with next := nd.next } ha rfl rfl m).1)
      · intro m
        exact (hv4 m).trans (((set_preserves_kv { b with last := nd.last } hb rfl rfl m).2).trans
          (set_preserves_kv { a with next := nd.next } ha rfl rfl m).2)

/-! ### Operation specifications -/

theorem keyAt_eq_of_map_key_eq {d d' : List (Node K V)} {j : Nat}
    (h : (d'.get? j).map Node.key = (d.get? j).map Node.key) :
    keyAt d' j = keyAt d j := by
  unfold keyAt
  cases hd' : d'.get? j <;> cases hdd : d.get? j <;>
    rw [hd', hdd] at h <;> simp_all

theorem keyAt_eq_of_map_key {d : List (Node K V)} {j : Nat} {k : K}
    (h : (d.get? j).map Node.key = some k) : keyAt d j = k := by
  unfold keyAt
  cases hd : d.get? j <;> rw [hd] at h <;> simp_all

theorem lookupKV_ne_none_of_mem {p : K × Nat} {m : List (K × Nat)}
    (h : p ∈ m) : lookupKV p.1 m ≠ none := by
  intro hn
  exact (lookupKV_eq_none_iff _ _).mp hn (List.mem_map_of_mem Prod.fst h)

/-- Go `Get` on an absent key: Go returns `(*new(V), false)` without touching
any state. -/
theorem getOp?_miss (c : Cache K V E) (key : K)
    (hlk : lookupKV key c.keys = none) :
    getOp? c key = some (default, false, c) := by
  rw [getOp?, hlk]

/-- Go `Get` on a present key: succeeds on a well-formed state, returns the
stored value and `true`, promotes the slot to the head, and preserves
well-formedness, `len`, `cap`, `keys`, `evict` and every slot's key/value. -/
theorem getOp?_hit_spec (c : Cache K V E) (key : K) (i : Nat)
    (hwf : WF c) (hlk : lookupKV key c.keys = some i) :
    ∃ nd c', read? c.data i = some nd ∧
      getOp? c key = some (nd.val, true, c') ∧ WF c' ∧
      c'.len = c.len ∧ c'.cap = c.cap ∧ c'.keys = c.keys ∧
      c'.evict = c.evict ∧ c'.head = i ∧
      (∀ m, (c'.data.get? m).map Node.key = (c.data.get? m).map Node.key) ∧
      (∀ m, (c'.data.get? m).map Node.val = (c.data.get? m).map Node.val) := by
  obtain ⟨hdl, hlen, hkl, hhd, htl, hlb, hkv, hact, hnd⟩ := hwf
  have hmem : (key, i) ∈ c.keys := lookupKV_mem hlk
  obtain ⟨hilen, hikey⟩ := hkv _ hmem
  have hcap0 : c.cap ≠ 0 := by
    intro h
    rw [h] at hlen
    rw [Nat.le_zero.mp hlen] at hilen
    exact Nat.not_lt_zero _ hilen
  have hicap : i < c.cap := lt_of_lt_of_le hilen hlen
  have hi' : i < c.data.length := by rw [hdl]; exact hicap
  obtain ⟨nd, hndr, hndm⟩ := read?_eq_some_of_lt hi'
  obtain ⟨c', hpr, hplen, hpcap, hpkeys, hpevict, hpdlen, hphead, hptail,
    hplb, hpk, hpv⟩ :=
    promote?_spec c i hdl hicap (hhd.resolve_left hcap0)
      (htl.resolve_left hcap0) hlb
  refine ⟨nd, c', hndr, ?_, ?_, hplen, hpcap, hpkeys, hpevict, hphead, hpk, hpv⟩
  · rw [getOp?, hlk]
    show ((read? c.data i).bind fun nd =>
      (promote? c i).map fun c' => (nd.val, true, c')) = some (nd.val, true, c')
    rw [hndr, Option.some_bind, hpr, Option.map_some']
  · refine ⟨?_, ?_, ?_, ?_, ?_, ?_, ?_, ?_, ?_⟩
    · rw [hpdlen, hpcap]; exact hdl
    · rw [hplen, hpcap]; exact hlen
    · rw [hpkeys, hplen]; exact hkl
    · exact Or.inr (by rw [hphead, hpcap]; exact hicap)
    · exact Or.inr (by rw [hpcap]; exact hptail)
    · rw [hpcap]; exact hplb
    · intro p hp
      rw [hpkeys] at hp
      obtain ⟨h1, h2⟩ := hkv p hp
      exact ⟨by rw [hplen]; exact h1, by rw [hpk p.2]; exact h2⟩
    · intro j hj
      rw [hplen] at hj
      rw [hpkeys, keyAt_eq_of_map_key_eq (hpk j)]
      exact hact j hj
    · rw [hpkeys]; exact hnd

/-- Go `Put` on a present key: succeeds on a well-formed state, overwrites the
value, promotes the slot to the head, returns a `nil` error and an empty
callback trace, and preserves well-formedness, `len`, `cap`, `keys`, `evict`
and every slot's key (and every other slot's value). -/
theorem put?_hit_spec (c : Cache K V E) (key : K) (val : V) (i : Nat)
    (hwf : WF c) (hlk : lookupKV key c.keys = some i) :
    ∃ c', put? c key val = some (c', none, []) ∧ WF c' ∧
      c'.len = c.len ∧ c'.cap = c.cap ∧ c'.keys = c.keys ∧
      c'.evict = c.evict ∧ c'.head = i ∧
      (c'.data.get? i).map Node.val = some val ∧
      (∀ m, (c'.data.get? m).map Node.key = (c.data.get? m).map Node.key) ∧
      (∀ m, m ≠ i → (c'.data.get? m).map Node.val = (c.data.get? m).map Node.val) := by
  obtain ⟨hdl, hlen, hkl, hhd, htl, hlb, hkv, hact, hnd⟩ := hwf
  have hmem : (key, i) ∈ c.keys := lookupKV_mem hlk
  obtain ⟨hilen, hikey⟩ := hkv _ hmem
  have hcap0 : c.cap ≠ 0 := by
    intro h
    rw [h] at hlen
    rw [Nat.le_zero.mp hlen] at hilen
    exact Nat.not_lt_zero _ hilen
  have hicap : i < c.cap := lt_of_lt_of_le hilen hlen
  have hi' : i < c.data.length := by rw [hdl]; exact hicap
  obtain ⟨nd, hndr, hndm⟩ := read?_eq_some_of_lt hi'
  have hw := write?_eq_some hi' { nd with val := val }
  have hlb2 : linksBound c.cap (c.data.set i { nd with val := val }) :=
    linksBound_set hlb (hlb nd hndm).1 (hlb nd hndm).2
  have hdl2 : (c.data.set i { nd with val := val }).length = c.cap := by
    rw [List.length_set]; exact hdl
  obtain ⟨c', hpr, hplen, hpcap, hpkeys, hpevict, hpdlen, hphead, hptail,
    hplb, hpk, hpv⟩ :=
    promote?_spec { c with data := c.data.set i { nd with val := val } } i
      hdl2 hicap (hhd.resolve_left hcap0) (htl.resolve_left hcap0) hlb2
  have hkeq : ∀ m, (c'.data.get? m).map Node.key = (c.data.get? m).map Node.key := by
    intro m
    exact (hpk m).trans (set_preserves_key { nd with val := val } hndr rfl m)
  refine ⟨c', ?_, ?_, hplen, hpcap, hpkeys, hpevict, hphead, ?_, hkeq, ?_⟩
  · rw [put?, if_neg hcap0, hlk]
    show ((read? c.data i).bind fun nd =>
      (write? c.data i { nd with val := val }).bind fun d =>
      (promote? { c with data := d } i).map fun c' =>
      (c', none, [])) = some (c', none, [])
    rw [hndr, Option.some_bind, hw, Option.some_bind, hpr, Option.map_some']
  · refine ⟨?_, ?_, ?_, ?_, ?_, ?_, ?_, ?_, ?_⟩
    · rw [hpdlen, hpcap]
      show (c.data.set i { nd with val := val }).length = c.cap
      exact hdl2
    · rw [hplen, hpcap]; exact hlen
    · rw [hpkeys, hplen]; exact hkl
    · exact Or.inr (by rw [hphead, hpcap]; exact hicap)
    · exact Or.inr (by rw [hpcap]; exact hptail)
    · rw [hpcap]; exact hplb
    · intro p hp
      rw [hpkeys] at hp
      obtain ⟨h1, h2⟩ := hkv p hp
      exact ⟨by rw [hplen]; exact h1, by rw [hkeq p.2]; exact h2⟩
    · intro j hj
      rw [hplen] at hj
      rw [hpkeys, keyAt_eq_of_map_key_eq (hkeq j)]
      exact hact j hj
    · rw [hpkeys]; exact hnd
  · rw [hpv i]
    show ((c.data.set i { nd with val := val }).get? i).map Node.val = some val
    rw [List.get?_set_eq_of_lt _ hi']
    rfl
  · intro m hm
    rw [hpv m]
    show ((c.data.set i { nd with val := val }).get? m).map Node.val =
      (c.data.get? m).map Node.val
    rw [List.get?_set_ne _ _ (fun h => hm h.symm)]

/-- Go `Put` of a new key with room available: succeeds on a well-formed state,
claims slot `len` with the new entry at the head, returns a `nil` error and an
empty callback trace, and preserves well-formedness and all other slots. -/
theorem put?_space_spec (c : Cache K V E) (key : K) (val : V)
    (hwf : WF c) (hlk : lookupKV key c.keys = none) (hroom : c.len < c.cap) :
    ∃ c', put? c key val = some (c', none, []) ∧ WF c' ∧
      c'.len = c.len + 1 ∧ c'.cap = c.cap ∧ c'.evict = c.evict ∧
      c'.keys = insertKV key c.len c.keys ∧ c'.head = c.len ∧ c'.tail = c.tail ∧
      (c'.data.get? c.len).map Node.key = some key ∧
      (c'.data.get? c.len).map Node.val = some val ∧
      (∀ m, m ≠ c.len → (c'.data.get? m).map Node.key = (c.data.get? m).map Node.key) ∧
      (∀ m, m ≠ c.len → (c'.data.get? m).map Node.val = (c.data.get? m).map Node.val) := by
  obtain ⟨hdl, hlen, hkl, hhd, htl, hlb, hkv, hact, hnd⟩ := hwf
  have hcpos : 0 < c.cap := Nat.lt_of_le_of_lt (Nat.zero_le _) hroom
  have hcap0 : c.cap ≠ 0 := Nat.pos_iff_ne_zero.mp hcpos
  have hhd' : c.head < c.cap := hhd.resolve_left hcap0
  have hlen' : c.len < c.data.length := by rw [hdl]; exact hroom
  have hw1 := write?_eq_some hlen' { next := c.head, last := 0, key := key, val := val }
  have hh1 : c.head < (c.data.set c.len
      { next := c.head, last := 0, key := key, val := val }).length := by
    rw [List.length_set, hdl]; exact hhd'
  obtain ⟨h, hhr, hhm⟩ := read?_eq_some_of_lt hh1
  have hw2 := write?_eq_some hh1 { h with last := c.len }
  have hd1get : (c.data.set c.len
      { next := c.head, last := 0, key := key, val := val }).get? c.len =
      some { next := c.head, last := 0, key := key, val := val } :=
    List.get?_set_eq_of_lt _ hlen'
  have hd2 := set_preserves_kv { h with last := c.len } hhr rfl rfl
  have hkm : ∀ m, m ≠ c.len →
      (((c.data.set c.len { next := c.head, last := 0, key := key, val := val }).set
        c.head { h with last := c.len }).get? m).map Node.key =
      (c.data.get? m).map Node.key ∧
      (((c.data.set c.len { next := c.head, last := 0, key := key, val := val }).set
        c.head { h with last := c.len }).get? m).map Node.val =
      (c.data.get? m).map Node.val := by
    intro m hm
    have hne : c.len ≠ m := fun hx => hm hx.symm
    refine ⟨(hd2 m).1.trans ?_, (hd2 m).2.trans ?_⟩ <;>
      rw [List.get?_set_ne _ _ hne]
  have hkl' : (((c.data.set c.len
      { next := c.head, last := 0, key := key, val := val }).set
      c.head { h with last := c.len }).get? c.len).map Node.key = some key := by
    rw [(hd2 c.len).1, hd1get, Option.map_some']
  have hvl' : (((c.data.set c.len
      { next := c.head, last := 0, key := key, val := val }).set
      c.head { h with last := c.len }).get? c.len).map Node.val = some val := by
    rw [(hd2 c.len).2, hd1get, Option.map_some']
  have hlb1 : linksBound c.cap (c.data.set c.len
      { next := c.head, last := 0, key := key, val := val }) :=
    linksBound_set hlb hhd' hcpos
  have hlb2 : linksBound c.cap ((c.data.set c.len
      { next := c.head, last := 0, key := key, val := val }).set
      c.head { h with last := c.len }) :=
    linksBound_set hlb1 (hlb1 h hhm).1 hroom
  refine ⟨{ c with
      data := (c.data.set c.len
        { next := c.head, last := 0, key := key, val := val }).set
        c.head { h with last := c.len },
      head := c.len, keys := insertKV key c.len c.keys, len := c.len + 1 },
    ?_, ?_, rfl, rfl, rfl, rfl, rfl, rfl, hkl', hvl',
    fun m hm => (hkm m hm).1, fun m hm => (hkm m hm).2⟩
  · rw [put?, if_neg hcap0, hlk]
    show (if c.len < c.cap then
      ((write? c.data c.len
          { next := c.head, last := 0, key := key, val := val }).bind fun d1 =>
        (read? d1 c.head).bind fun h =>
        (write? d1 c.head { h with last := c.len }).map fun d2 =>
        ({ c with data := d2, head := c.len,
                  keys := insertKV key c.len c.keys,
                  len := c.len + 1 }, none, []))
      else _) = _
    rw [if_pos hroom, hw1, Option.some_bind, hhr, Option.some_bind, hw2,
      Option.map_some']
  · refine ⟨?_, ?_, ?_, ?_, ?_, ?_, ?_, ?_, ?_⟩
    · show ((c.data.set c.len _).set c.head _).length = c.cap
      rw [List.length_set, List.length_set]; exact hdl
    · exact hroom
    · show (insertKV key c.len c.keys).length = c.len + 1
      rw [length_insertKV_of_lookup_none hlk, hkl]
    · exact Or.inr hroom
    · exact Or.inr (htl.resolve_left hcap0)
    · exact hlb2
    · intro p hp
      rcases mem_insertKV hp with hpe | hpm
      · subst hpe
        exact ⟨Nat.lt_succ_self _, hkl'⟩
      · obtain ⟨h1, h2⟩ := hkv p hpm
        have hne : p.2 ≠ c.len := Nat.ne_of_lt h1
        exact ⟨Nat.lt_succ_of_lt h1, ((hkm p.2 hne).1).trans h2⟩
    · intro j hj
      rcases Nat.lt_succ_iff_lt_or_eq.mp hj with hj' | hj'
      · have hne : j ≠ c.len := Nat.ne_of_lt hj'
        have hkeq : keyAt ((c.data.set c.len
            { next := c.head, last := 0, key := key, val := val }).set
            c.head { h with last := c.len }) j = keyAt c.data j :=
          keyAt_eq_of_map_key_eq (hkm j hne).1
        show lookupKV _ (insertKV key c.len c.keys) = some j
        rw [hkeq]
        have hkne : keyAt c.data j ≠ key := by
          intro hx
          have h1 := hact j hj'
          rw [hx, hlk] at h1
          exact Option.noConfusion h1
        rw [lookupKV_insert_ne hkne]
        exact hact j hj'
      · rw [hj', keyAt_eq_of_map_key hkl']
        exact lookupKV_insert_self key c.len c.keys
    · exact nodup_fst_insertKV_of_lookup_none hnd hlk _

/-- Go `Put` of a new key on a full cache: an eviction.  Succeeds on a well-formed
state, calls the callback exactly once with the victim slot\'s old key and
value, returns the callback\'s error verbatim, removes the victim key,
installs the new entry in the victim\'s slot at the head, and preserves
well-formedness, `len`, `cap`, `evict` and all other slots. -/
theorem put?_evict_spec (c : Cache K V E) (key : K) (val : V)
    (hwf : WF c) (hlk : lookupKV key c.keys = none)
    (hfull : ¬ c.len < c.cap) (hcap0 : c.cap ≠ 0) :
    ∃ victim c', read? c.data c.tail = some victim ∧
      put? c key val = some (c', callEvict c victim.key victim.val,
        evictTrace c victim.key victim.val) ∧ WF c' ∧
      victim.key ≠ key ∧
      c'.len = c.len ∧ c'.cap = c.cap ∧ c'.evict = c.evict ∧
      c'.keys = insertKV key c.tail (eraseKV victim.key c.keys) ∧
      c'.head = c.tail ∧
      lookupKV key c'.keys = some c.tail ∧
      lookupKV victim.key c'.keys = none ∧
      (c'.data.get? c.tail).map Node.key = some key ∧
      (c'.data.get? c.tail).map Node.val = some val ∧
      (∀ m, m ≠ c.tail → (c'.data.get? m).map Node.key = (c.data.get? m).map Node.key) ∧
      (∀ m, m ≠ c.tail → (c'.data.get? m).map Node.val = (c.data.get? m).map Node.val) := by
  obtain ⟨hdl, hlen, hkl, hhd, htl, hlb, hkv, hact, hnd⟩ := hwf
  have hfull' : c.len = c.cap := Nat.le_antisymm hlen (Nat.le_of_not_lt hfull)
  have htl' : c.tail < c.cap := htl.resolve_left hcap0
  have htlen : c.tail < c.len := by rw [hfull']; exact htl'
  have hti' : c.tail < c.data.length := by rw [hdl]; exact htl'
  obtain ⟨victim, hvr, hvm⟩ := read?_eq_some_of_lt hti'
  have hvr' : c.data.get? c.tail = some victim := hvr
  have hvk : keyAt c.data c.tail = victim.key :=
    keyAt_eq_of_map_key (by rw [hvr', Option.map_some'])
  have hlkv : lookupKV victim.key c.keys = some c.tail := by
    have := hact c.tail htlen
    rwa [hvk] at this
  have hne : victim.key ≠ key := by
    intro hx
    rw [hx] at hlkv
    rw [hlkv] at hlk
    exact Option.noConfusion hlk
  have hlke : lookupKV key (eraseKV victim.key c.keys) = none := by
    rw [lookupKV_erase_ne (Ne.symm hne)]
    exact hlk
  have hlkey' : lookupKV key (insertKV key c.tail (eraseKV victim.key c.keys)) =
      some c.tail := lookupKV_insert_self _ _ _
  have hlvict' : lookupKV victim.key
      (insertKV key c.tail (eraseKV victim.key c.keys)) = none := by
    rw [lookupKV_insert_ne hne]
    exact lookupKV_erase_self hnd
  have hw := write?_eq_some hti' { victim with key := key, val := val }
  have hdl2 : (c.data.set c.tail { victim with key := key, val := val }).length
      = c.cap := by rw [List.length_set]; exact hdl
  have hlb2 : linksBound c.cap
      (c.data.set c.tail { victim with key := key, val := val }) :=
    linksBound_set hlb (hlb victim hvm).1 (hlb victim hvm).2
  obtain ⟨c', hpr, hplen, hpcap, hpkeys, hpevict, hpdlen, hphead, hptail,
    hplb, hpk, hpv⟩ :=
    promote?_spec
      { c with data := c.data.set c.tail { victim with key := key, val := val }
               keys := insertKV key c.tail (eraseKV victim.key c.keys) }
      c.tail hdl2 htl' (hhd.resolve_left hcap0) htl' hlb2
  have hd2get : (c.data.set c.tail
      { victim with key := key, val := val }).get? c.tail =
      some { victim with key := key, val := val } :=
    List.get?_set_eq_of_lt _ hti'
  have hck : (c'.data.get? c.tail).map Node.key = some key := by
    rw [hpk c.tail]
    show ((c.data.set c.tail { victim with key := key, val := val }).get?
      c.tail).map Node.key = some key
    rw [hd2get, Option.map_some']
  have hcv : (c'.data.get? c.tail).map Node.val = some val := by
    rw [hpv c.tail]
    show ((c.data.set c.tail { victim with key := key, val := val }).get?
      c.tail).map Node.val = some val
    rw [hd2get, Option.map_some']
  have hckm : ∀ m, m ≠ c.tail →
      (c'.data.get? m).map Node.key = (c.data.get? m).map Node.key := by
    intro m hm
    rw [hpk m]
    show ((c.data.set c.tail { victim with key := key, val := val }).get?
      m).map Node.key = (c.data.get? m).map Node.key
    rw [List.get?_set_ne _ _ (fun hx => hm hx.symm)]
  have hcvm : ∀ m, m ≠ c.tail →
      (c'.data.get? m).map Node.val = (c.data.get? m).map Node.val := by
    intro m hm
    rw [hpv m]
    show ((c.data.set c.tail { victim with key := key, val := val }).get?
      m).map Node.val = (c.data.get? m).map Node.val
    rw [List.get?_set_ne _ _ (fun hx => hm hx.symm)]
  refine ⟨victim, c', hvr, ?_, ?_, hne, hplen, hpcap,
    hpevict, hpkeys, hphead, by rw [hpkeys]; exact hlkey',
    by rw [hpkeys]; exact hlvict', hck, hcv, hckm, hcvm⟩
  · rw [put?, if_neg hcap0, hlk]
    show (if c.len < c.cap then _ else
      ((read? c.data c.tail).bind fun victim =>
       (write? c.data c.tail { victim with key := key, val := val }).bind fun d =>
       (promote?
           { c with data := d
                    keys := insertKV key c.tail (eraseKV victim.key c.keys) }
           c.tail).map fun c' =>
       (c', callEvict c victim.key victim.val,
            evictTrace c victim.key victim.val))) = _
    rw [if_neg hfull, hvr, Option.some_bind, hw, Option.some_bind, hpr,
      Option.map_some']
  · refine ⟨?_, ?_, ?_, ?_, ?_, ?_, ?_, ?_, ?_⟩
    · rw [hpdlen, hpcap]
      show (c.data.set c.tail { victim with key := key, val := val }).length
        = c.cap
      exact hdl2
    · rw [hplen, hpcap]; exact hlen
    · rw [hpkeys, hplen]
      show (insertKV key c.tail (eraseKV victim.key c.keys)).length = c.len
      rw [length_insertKV_of_lookup_none hlke]
      have := length_eraseKV_of_lookup_some hlkv
      rw [this, hkl]
    · exact Or.inr (by rw [hphead, hpcap]; exact htl')
    · exact Or.inr (by rw [hpcap]; exact hptail)
    · rw [hpcap]; exact hplb
    · intro p hp
      rw [hpkeys] at hp
      rcases mem_insertKV hp with hpe | hpm
      · subst hpe
        exact ⟨by rw [hplen]; exact htlen, hck⟩
      · have hpm' : p ∈ c.keys := mem_eraseKV hpm
        obtain ⟨h1, h2⟩ := hkv p hpm'
        have hpt : p.2 ≠ c.tail := by
          intro hx
          rw [hx, hvr'] at h2
          have hp1 : p.1 = victim.key := by
            simpa using h2.symm
          have hmm : p.1 ∈ (eraseKV victim.key c.keys).map Prod.fst :=
            List.mem_map_of_mem Prod.fst hpm
          rw [hp1] at hmm
          have : victim.key ∈ (eraseKV victim.key c.keys).map Prod.fst := hmm
          exact (lookupKV_eq_none_iff _ _).mp (lookupKV_erase_self hnd) this
        exact ⟨by rw [hplen]; exact h1, (hckm p.2 hpt).trans h2⟩
    · intro j hj
      rw [hplen] at hj
      by_cases hjt : j = c.tail
      · subst hjt
        rw [hpkeys, keyAt_eq_of_map_key hck]
        exact hlkey'
      · have hkeq : keyAt c'.data j = keyAt c.data j :=
          keyAt_eq_of_map_key_eq (hckm j hjt)
        rw [hpkeys, hkeq]
        have hk1 : keyAt c.data j ≠ key := by
          intro hx
          have h1 := hact j hj
          rw [hx, hlk] at h1
          exact Option.noConfusion h1
        have hk2 : keyAt c.data j ≠ victim.key := by
          intro hx
          have h1 := hact j hj
          rw [hx, hlkv] at h1
          exact hjt (Option.some.inj h1).symm
        rw [lookupKV_insert_ne hk1, lookupKV_erase_ne hk2]
        exact hact j hj
    · rw [hpkeys]
      exact nodup_fst_insertKV_of_lookup_none (nodup_fst_eraseKV hnd) hlke _

/-- The Go `Clear` error-joining loop accumulates exactly the non-`nil`
callback results, in storage order. -/
theorem clearLoop_eq (f : K → V → Option E) (acc : List E)
    (l : List (Node K V)) :
    clearLoop f acc l = acc ++ l.filterMap (fun n => f n.key n.val) := by
  induction l generalizing acc with
  | nil => simp [clearLoop]
  | cons n t ih =>
      rw [clearLoop, ih, List.filterMap_cons]
      cases hf : f n.key n.val <;> simp [hf]

/-- Go `Clear` always succeeds on a well-formed state: it reports the active
slots to the callback in storage order, returns the non-`nil` callback errors
in order, zeroes the active slots, empties the key index, resets `len` to `0`
— and leaves `head` and `tail` untouched. -/
theorem clear?_spec (c : Cache K V E) (hwf : WF c) :
    ∃ c' errs calls, clear? c = some (c', errs, calls) ∧ WF c' ∧
      c'.len = 0 ∧ c'.keys = [] ∧ c'.cap = c.cap ∧ c'.evict = c.evict ∧
      c'.head = c.head ∧ c'.tail = c.tail ∧
      calls = (match c.evict with
        | some _ => (c.data.take c.len).map (fun n => (n.key, n.val))
        | none => []) ∧
      errs = (match c.evict with
        | some f => (c.data.take c.len).filterMap (fun n => f n.key n.val)
        | none => []) := by
  obtain ⟨hdl, hlen, hkl, hhd, htl, hlb, hkv, hact, hnd⟩ := hwf
  have hld : c.len ≤ c.data.length := by rw [hdl]; exact hlen
  refine ⟨{ c with
      data := List.replicate c.len default ++ c.data.drop c.len,
      keys := [], len := 0 },
    (match c.evict with
      | some f => clearLoop f [] (c.data.take c.len)
      | none => []),
    (match c.evict with
      | some _ => (c.data.take c.len).map (fun n => (n.key, n.val))
      | none => []), ?_, ?_, rfl, rfl, rfl, rfl, rfl, rfl,
    rfl, ?_⟩
  · rw [clear?, if_pos hld]
  · refine ⟨?_, Nat.zero_le _, rfl, hhd, htl, ?_, ?_, ?_, ?_⟩
    · show (List.replicate c.len default ++ c.data.drop c.len).length = c.cap
      rw [List.length_append, List.length_replicate, List.length_drop,
        ← hdl, Nat.add_sub_cancel' hld]
    · intro nd hnd'
      rcases List.mem_append.mp hnd' with hm | hm
      · have hcpos : 0 < c.cap := by
          rcases List.eq_of_mem_replicate hm with rfl
          have hlpos : 0 < c.len := by
            by_contra hz
            rw [Nat.eq_zero_of_not_pos hz] at hm
            simp [List.replicate] at hm
          exact Nat.lt_of_lt_of_le hlpos hlen
        rcases List.eq_of_mem_replicate hm with rfl
        exact ⟨hcpos, hcpos⟩
      · exact hlb nd (List.mem_of_mem_drop hm)
    · intro p hp
      simp at hp
    · intro i hi
      exact absurd hi (Nat.not_lt_zero i)
    · simp
  · cases c.evict with
    | none => rfl
    | some f =>
        show clearLoop f [] (c.data.take c.len) =
          (c.data.take c.len).filterMap fun n => f n.key n.val
        rw [clearLoop_eq, List.nil_append]

/-- Every single public operation succeeds on a well-formed state, preserves
well-formedness, and never changes `cap` or the stored callback. -/
theorem step?_wf (c : Cache K V E) (op : Op K V) (hwf : WF c) :
    ∃ c', step? c op = some c' ∧ WF c' ∧ c'.cap = c.cap ∧ c'.evict = c.evict := by
  cases op with
  | get k =>
      cases hlk : lookupKV k c.keys with
      | none =>
          exact ⟨c, by rw [step?, getOp?_miss c k hlk, Option.map_some'],
            hwf, rfl, rfl⟩
      | some i =>
          obtain ⟨nd, c', hndr, heq, hwf', hlen', hcap', hkeys', hevict', _⟩ :=
            getOp?_hit_spec c k i hwf hlk
          exact ⟨c', by rw [step?, heq, Option.map_some'], hwf', hcap', hevict'⟩
  | put k v =>
      by_cases hcap : c.cap = 0
      · refine ⟨c, ?_, hwf, rfl, rfl⟩
        rw [step?, put?, if_pos hcap, Option.map_some']
      · cases hlk : lookupKV k c.keys with
        | some i =>
            obtain ⟨c', heq, hwf', hlen', hcap', hkeys', hevict', _⟩ :=
              put?_hit_spec c k v i hwf hlk
            exact ⟨c', by rw [step?, heq, Option.map_some'], hwf', hcap', hevict'⟩
        | none =>
            by_cases hroom : c.len < c.cap
            · obtain ⟨c', heq, hwf', hlen', hcap', hevict', _⟩ :=
                put?_space_spec c k v hwf hlk hroom
              exact ⟨c', by rw [step?, heq, Option.map_some'], hwf', hcap', hevict'⟩
            · obtain ⟨victim, c', hvr, heq, hwf', hne', hlen', hcap', hevict', _⟩ :=
                put?_evict_spec c k v hwf hlk hroom hcap
              exact ⟨c', by rw [step?, heq, Option.map_some'], hwf', hcap', hevict'⟩
  | clear =>
      obtain ⟨c', errs, calls, heq, hwf', hlen', hkeys', hcap', hevict', _⟩ :=
        clear?_spec c hwf
      exact ⟨c', by rw [step?, heq, Option.map_some'], hwf', hcap', hevict'⟩

/-- Any sequence of public operations succeeds on a well-formed state and
ends in a well-formed state with the same `cap` and callback. -/
theorem run?_wf (c : Cache K V E) (ops : List (Op K V)) (hwf : WF c) :
    ∃ c', run? c ops = some c' ∧ WF c' ∧ c'.cap = c.cap ∧ c'.evict = c.evict := by
  induction ops generalizing c with
  | nil => exact ⟨c, rfl, hwf, rfl, rfl⟩
  | cons op t ih =>
      obtain ⟨c1, h1, hwf1, hcap1, hevict1⟩ := step?_wf c op hwf
      obtain ⟨c', h2, hwf2, hcap2, hevict2⟩ := ih c1 hwf1
      exact ⟨c', by rw [run?, h1, Option.some_bind]; exact h2, hwf2,
        hcap2.trans hcap1, hevict2.trans hevict1⟩

/-! ### Iteration loop characterisation -/

theorem allLoop_true (l : List (Node K V)) :
    allLoop (fun _ _ => true) l = l.map fun n => (n.key, n.val) := by
  induction l with
  | nil => rfl
  | cons n t ih => rw [allLoop, if_pos rfl, ih, List.map_cons]

theorem keysLoop_true (l : List (Node K V)) :
    keysLoop (fun _ => true) l = l.map fun n => n.key := by
  induction l with
  | nil => rfl
  | cons n t ih => rw [keysLoop, if_pos rfl, ih, List.map_cons]

theorem valuesLoop_true (l : List (Node K V)) :
    valuesLoop (fun _ => true) l = l.map fun n => n.val := by
  induction l with
  | nil => rfl
  | cons n t ih => rw [valuesLoop, if_pos rfl, ih, List.map_cons]

theorem allLoop_take (yield : K → V → Bool) (l : List (Node K V)) :
    ∃ n, allLoop yield l = (l.map fun n => (n.key, n.val)).take n := by
  induction l with
  | nil => exact ⟨0, rfl⟩
  | cons x t ih =>
      by_cases hy : yield x.key x.val = true
      · obtain ⟨n, hn⟩ := ih
        exact ⟨n + 1, by rw [allLoop, if_pos hy, hn, List.map_cons, List.take_succ_cons]⟩
      · exact ⟨1, by rw [allLoop, if_neg hy, List.map_cons, List.take_succ_cons,
          List.take_zero]⟩

theorem keysLoop_take (yield : K → Bool) (l : List (Node K V)) :
    ∃ n, keysLoop yield l = (l.map fun n => n.key).take n := by
  induction l with
  | nil => exact ⟨0, rfl⟩
  | cons x t ih =>
      by_cases hy : yield x.key = true
      · obtain ⟨n, hn⟩ := ih
        exact ⟨n + 1, by rw [keysLoop, if_pos hy, hn, List.map_cons, List.take_succ_cons]⟩
      · exact ⟨1, by rw [keysLoop, if_neg hy, List.map_cons, List.take_succ_cons,
          List.take_zero]⟩

theorem valuesLoop_take (yield : V → Bool) (l : List (Node K V)) :
    ∃ n, valuesLoop yield l = (l.map fun n => n.val).take n := by
  induction l with
  | nil => exact ⟨0, rfl⟩
  | cons x t ih =>
      by_cases hy : yield x.val = true
      · obtain ⟨n, hn⟩ := ih
        exact ⟨n + 1, by rw [valuesLoop, if_pos hy, hn, List.map_cons, List.take_succ_cons]⟩
      · exact ⟨1, by rw [valuesLoop, if_neg hy, List.map_cons, List.take_succ_cons,
          List.take_zero]⟩

/-- With distinct first components, a pair in an association list is
determined by its first component. -/
theorem eq_of_mem_of_nodup_fst {p q : K × Nat} {m : List (K × Nat)}
    (hn : (m.map Prod.fst).Nodup) (hp : p ∈ m) (hq : q ∈ m) (h1 : p.1 = q.1) :
    p = q := by
  induction m with
  | nil => simp at hp
  | cons r t ih =>
      simp only [List.map_cons, List.nodup_cons] at hn
      rcases List.mem_cons.mp hp with hp' | hp' <;>
        rcases List.mem_cons.mp hq with hq' | hq'
      · rw [hp', hq']
      · exfalso
        apply hn.1
        rw [← hp', h1]
        exact List.mem_map_of_mem Prod.fst hq'
      · exfalso
        apply hn.1
        rw [← hq', ← h1]
        exact List.mem_map_of_mem Prod.fst hp'
      · exact ih hn.2 hp' hq'

/-! ### The claims -/


/-- C2: on a fresh cache of capacity 2 with no eviction callback, after
`put(a,1); put(b,2)`, `get(a)` returns `(1, true)`; `put(c,3)` then evicts
key `b` (the least recently used, since `get(a)` promoted `a`) with no error
and no callback invocation, after which `get(b)` returns `(0, false)`,
`get(a)` returns `(1, true)` and `get(c)` returns `(3, true)`
(keys `a`, `b`, `c` are `10`, `11`, `12`). -/
theorem C2_concrete_scenario :
    ((run? (newCache 2 (none : Option (Nat → Nat → Option Unit)))
        [Op.put 10 1, Op.put 11 2]).bind fun c =>
      (getOp? c 10).map fun r => (r.1, r.2.1)) = some (1, true) ∧
    ((run? (newCache 2 (none : Option (Nat → Nat → Option Unit)))
        [Op.put 10 1, Op.put 11 2, Op.get 10]).bind fun c =>
      (put? c 12 3).map fun r => (r.2.1, r.2.2)) = some (none, []) ∧
    ((run? (newCache 2 (none : Option (Nat → Nat → Option Unit)))
        [Op.put 10 1, Op.put 11 2, Op.get 10, Op.put 12 3]).bind fun c =>
      some (lookupKV 11 c.keys,
            (getOp? c 11).map (fun r => (r.1, r.2.1)),
            (getOp? c 10).map (fun r => (r.1, r.2.1)),
            (getOp? c 12).map (fun r => (r.1, r.2.1)))) =
      some (none, some (0, false), some (1, true), some (3, true)) :=
  ⟨rfl, rfl, rfl⟩

/-- C3: after every `Get`/`Put`/`Clear` sequence from `New(capacity, evict)`,
the state invariant holds: the number of keys in the key index equals
`length`, `0 ≤ length ≤ capacity`, every key in the index maps to exactly one
slot position in `[0, length)` whose stored key equals the mapping key, and
hence the number of distinct keys held never exceeds `capacity`. -/
theorem C3_state_invariant (cap : Nat) (evict : Option (K → V → Option E))
    (ops : List (Op K V)) (c : Cache K V E)
    (h : run? (newCache cap evict) ops = some c) :
    c.keys.length = c.len ∧ 0 ≤ c.len ∧ c.len ≤ c.cap ∧
    (∀ p ∈ c.keys, p.2 < c.len ∧ (c.data.get? p.2).map Node.key = some p.1) ∧
    (∀ p q, p ∈ c.keys → q ∈ c.keys → p.1 = q.1 → p.2 = q.2) ∧
    c.keys.length ≤ c.cap := by
  obtain ⟨c', h', hwf, hcap, hevict⟩ :=
    run?_wf (newCache cap evict) ops (wf_newCache cap evict)
  obtain rfl : c' = c := Option.some.inj (h'.symm.trans h)
  obtain ⟨hdl, hlen, hkl, hhd, htl, hlb, hkv, hact, hnd⟩ := hwf
  refine ⟨hkl, Nat.zero_le _, hlen, hkv, ?_, by rw [hkl]; exact hlen⟩
  intro p q hp hq h1
  rw [eq_of_mem_of_nodup_fst hnd hp hq h1]


theorem C3_state_invariant_witness :
    run? (newCache 2 (none : Option (Nat → Nat → Option Unit)))
      [Op.put 0 1, Op.put 1 2, Op.get 0, Op.put 2 3] = some cC3w ∧
    (cC3w.keys.length = cC3w.len ∧ 0 ≤ cC3w.len ∧ cC3w.len ≤ cC3w.cap ∧
      (∀ p ∈ cC3w.keys, p.2 < cC3w.len ∧
        (cC3w.data.get? p.2).map Node.key = some p.1) ∧
      (∀ p q, p ∈ cC3w.keys → q ∈ cC3w.keys → p.1 = q.1 → p.2 = q.2) ∧
      cC3w.keys.length ≤ cC3w.cap) :=
  ⟨rfl, C3_state_invariant 2 none
    [Op.put 0 1, Op.put 1 2, Op.get 0, Op.put 2 3] cC3w rfl⟩

/-- C9: every sequence of public operations starting from `New(capacity,
evict)` runs to completion: every slot-array access made by `Get`/`Put`/
`Clear` (including the links followed by `promote` and the eviction path) is
in bounds — the embedding returns `none` exactly where Go would panic on an
out-of-range index — and so is every full or partial consumption of
`All`/`Keys`/`Values`, including on a capacity-0 cache. -/
theorem C9_no_out_of_bounds (cap : Nat) (evict : Option (K → V → Option E))
    (ops : List (Op K V)) :
    ∃ c, run? (newCache cap evict) ops = some c ∧
      (∀ yield, (all? c yield).isSome) ∧
      (∀ yield, (keys? c yield).isSome) ∧
      (∀ yield, (values? c yield).isSome) := by
  obtain ⟨c, h, hwf, _, _⟩ := run?_wf _ ops (wf_newCache cap evict)
  have hle : c.len ≤ c.data.length := by rw [hwf.1]; exact hwf.2.1
  exact ⟨c, h,
    fun y => by rw [all?, if_pos hle]; rfl,
    fun y => by rw [keys?, if_pos hle]; rfl,
    fun y => by rw [values?, if_pos hle]; rfl⟩

/-- C10: on a cache of capacity `0`, every `Put` is a no-op returning a `nil`
error, storing nothing, never invoking the callback, leaving the state
unchanged, and every subsequent `Get` returns `(zero-value, false)`. -/
theorem C10_cap_zero_noop (evict : Option (K → V → Option E))
    (ops : List (Op K V)) (c : Cache K V E)
    (h : run? (newCache 0 evict) ops = some c) (k : K) (v : V) :
    put? c k v = some (c, none, []) ∧ getOp? c k = some (default, false, c) := by
  obtain ⟨c', h', hwf, hcap, _⟩ := run?_wf _ ops (wf_newCache 0 evict)
  have hcc : c' = c := Option.some.inj (h'.symm.trans h)
  rw [hcc] at hwf hcap
  have hcap0 : c.cap = 0 := hcap
  have hlen0 : c.len = 0 := Nat.le_zero.mp (hcap0 ▸ hwf.2.1)
  have hkeys : c.keys = [] := by
    have := hwf.2.2.1
    rw [hlen0] at this
    exact List.length_eq_zero.mp this
  refine ⟨by rw [put?, if_pos hcap0], ?_⟩
  exact getOp?_miss c k (by rw [hkeys]; rfl)

theorem C10_cap_zero_noop_witness :
    put? (newCache 0 (none : Option (Nat → Nat → Option Unit))) 9 3 =
      some (newCache 0 none, none, []) ∧
    getOp? (newCache 0 (none : Option (Nat → Nat → Option Unit))) 9 =
      some (0, false, newCache 0 none) :=
  C10_cap_zero_noop none [Op.put 5 7] (newCache 0 none) rfl 9 3

/-- C7: `Get` of a key absent from the key index returns
`(zero-value, false)` and returns the state completely unchanged — `length`,
`head`, `tail`, the slot array and the key index (hence the recency
ordering) are exactly those of the input state. -/
theorem C7_get_miss_frame (c : Cache K V E) (key : K)
    (h : lookupKV key c.keys = none) :
    getOp? c key = some (default, false, c) :=
  getOp?_miss c key h


theorem C7_get_miss_frame_witness :
    lookupKV 4 cC7w.keys = none ∧ getOp? cC7w 4 = some (0, false, cC7w) :=
  ⟨rfl, C7_get_miss_frame cC7w 4 rfl⟩

/-- C5: `Put` of an already-present key — including when the cache is full —
overwrites the stored value, promotes the key\'s slot to the head of the
recency list, returns a `nil` error, never invokes the eviction callback
(empty invocation trace), and leaves `length` and the key index unchanged. -/
theorem C5_put_update_no_evict (c : Cache K V E) (key : K) (val : V) (i : Nat)
    (hwf : WF c) (hlk : lookupKV key c.keys = some i) :
    ∃ c', put? c key val = some (c', none, []) ∧
      c'.len = c.len ∧ c'.keys = c.keys ∧ c'.head = i ∧
      (c'.data.get? i).map Node.val = some val ∧
      lookupKV key c'.keys = some i := by
  obtain ⟨c', heq, hwf', hlen, hcap, hkeys, hevict, hhead, hval, _, _⟩ :=
    put?_hit_spec c key val i hwf hlk
  exact ⟨c', heq, hlen, hkeys, hhead, hval, by rw [hkeys]; exact hlk⟩


theorem C5_put_update_no_evict_witness :
    WF cC5w ∧ cC5w.len = cC5w.cap ∧ lookupKV 1 cC5w.keys = some 0 ∧
    (∃ c', put? cC5w 1 99 = some (c', none, []) ∧
      c'.len = cC5w.len ∧ c'.keys = cC5w.keys ∧ c'.head = 0 ∧
      (c'.data.get? 0).map Node.val = some 99 ∧
      lookupKV 1 c'.keys = some 0) :=
  ⟨by decide, rfl, rfl, C5_put_update_no_evict cC5w 1 99 0 (by decide) rfl⟩

/-- C4: `Put` of an absent key on a full cache (`length = capacity > 0`) with
a configured callback invokes the callback exactly once, with the victim
slot\'s old key and value; the callback\'s result is returned verbatim as
`Put`\'s error; and regardless of that error the structural update completes:
afterwards `Get` of the new key returns `(val, true)` and `Get` of the evicted
key returns `(zero-value, false)`. -/
theorem C4_eviction_callback (c : Cache K V E) (key : K) (val : V)
    (f : K → V → Option E)
    (hwf : WF c) (hfull : c.len = c.cap) (hpos : 0 < c.cap)
    (hlk : lookupKV key c.keys = none) (hcb : c.evict = some f) :
    ∃ victim c', read? c.data c.tail = some victim ∧
      put? c key val = some (c', f victim.key victim.val,
        [(victim.key, victim.val)]) ∧
      (∃ c2, getOp? c' key = some (val, true, c2)) ∧
      getOp? c' victim.key = some (default, false, c') := by
  have hnl : ¬c.len < c.cap := by rw [hfull]; exact Nat.lt_irrefl _
  have hcap0 : c.cap ≠ 0 := Nat.pos_iff_ne_zero.mp hpos
  obtain ⟨victim, c', hvr, heq, hwf', hne, hlen, hcap, hevict, hkeys, hhead,
    hlkey, hlvict, hk, hv, _, _⟩ := put?_evict_spec c key val hwf hlk hnl hcap0
  have h1 : callEvict c victim.key victim.val = f victim.key victim.val := by
    rw [callEvict, hcb]
  have h2 : evictTrace c victim.key victim.val = [(victim.key, victim.val)] := by
    rw [evictTrace, hcb]
  refine ⟨victim, c', hvr, by rw [heq, h1, h2], ?_, ?_⟩
  · obtain ⟨nd, c2, hrd, hgeq, _⟩ := getOp?_hit_spec c' key c.tail hwf' hlkey
    have hndv : nd.val = val := by
      have hrd' : c'.data.get? c.tail = some nd := hrd
      rw [hrd'] at hv
      simpa using hv
    exact ⟨c2, by rw [hgeq, hndv]⟩
  · exact getOp?_miss c' victim.key hlvict


theorem C4_eviction_callback_witness :
    WF cC4w ∧ cC4w.len = cC4w.cap ∧ 0 < cC4w.cap ∧
    lookupKV 1 cC4w.keys = none ∧
    (∃ victim c', read? cC4w.data cC4w.tail = some victim ∧
      put? cC4w 1 2 = some (c', noErr victim.key victim.val,
        [(victim.key, victim.val)]) ∧
      (∃ c2, getOp? c' 1 = some (2, true, c2)) ∧
      getOp? c' victim.key = some (0, false, c')) :=
  ⟨by decide, rfl, by decide, rfl,
    C4_eviction_callback cC4w 1 2 noErr (by decide) rfl (by decide) rfl rfl⟩

/-- C6: `Clear` invokes the callback once per active slot in storage order
(slot `0` upward) with each slot\'s key and value, aggregates the callback
errors in order into one combined value that keeps each individual failure
(`errors.Join` modelled as the ordered list of non-`nil` errors), returns the
empty aggregate when the callback is absent or no call errs, leaves
`length = 0` and an empty key index, and an immediately following `Clear`
invokes the callback zero times. -/
theorem C6_clear_aggregate (c : Cache K V E) (hle : c.len ≤ c.data.length) :
    ∃ c' errs calls, clear? c = some (c', errs, calls) ∧
      c'.len = 0 ∧ c'.keys = [] ∧
      (c.evict = none → errs = [] ∧ calls = []) ∧
      (∀ f, c.evict = some f →
        calls = (c.data.take c.len).map (fun n => (n.key, n.val)) ∧
        errs = (c.data.take c.len).filterMap (fun n => f n.key n.val) ∧
        ((∀ n ∈ c.data.take c.len, f n.key n.val = none) → errs = [])) ∧
      clear? c' = some (c', [], []) := by
  refine ⟨{ c with
      data := List.replicate c.len default ++ c.data.drop c.len,
      keys := [], len := 0 },
    (match c.evict with
      | some f => clearLoop f [] (c.data.take c.len)
      | none => []),
    (match c.evict with
      | some _ => (c.data.take c.len).map (fun n => (n.key, n.val))
      | none => []), ?_, rfl, rfl, ?_, ?_, ?_⟩
  · rw [clear?, if_pos hle]
  · intro hev
    rw [hev]
    exact ⟨rfl, rfl⟩
  · intro f hf
    rw [hf]
    refine ⟨rfl, ?_, ?_⟩
    · show clearLoop f [] (c.data.take c.len) =
        (c.data.take c.len).filterMap fun n => f n.key n.val
      rw [clearLoop_eq, List.nil_append]
    · intro hnone
      show clearLoop f [] (c.data.take c.len) = []
      rw [clearLoop_eq, List.nil_append]
      exact List.filterMap_eq_nil.mpr hnone
  · rw [clear?, if_pos (Nat.zero_le _)]
    cases c.evict <;> rfl



theorem C6_clear_aggregate_witness :
    cC6w.len ≤ cC6w.data.length ∧
    (∃ c' errs calls, clear? cC6w = some (c', errs, calls) ∧
      c'.len = 0 ∧ c'.keys = [] ∧
      (cC6w.evict = none → errs = [] ∧ calls = []) ∧
      (∀ f, cC6w.evict = some f →
        calls = (cC6w.data.take cC6w.len).map (fun n => (n.key, n.val)) ∧
        errs = (cC6w.data.take cC6w.len).filterMap (fun n => f n.key n.val) ∧
        ((∀ n ∈ cC6w.data.take cC6w.len, f n.key n.val = none) → errs = [])) ∧
      clear? c' = some (c', [], [])) :=
  ⟨by decide, C6_clear_aggregate cC6w (by decide)⟩

/-- C8: `All`, `Keys` and `Values` enumerate exactly the active slots
(positions `0` through `length - 1`) in storage order — pairs, keys and
values respectively — when fully consumed, and an arbitrary consumer (one
that may stop early) receives precisely a prefix of that sequence. -/
theorem C8_iteration_storage_order (c : Cache K V E)
    (hle : c.len ≤ c.data.length) :
    all? c (fun _ _ => true) =
      some ((c.data.take c.len).map fun n => (n.key, n.val)) ∧
    keys? c (fun _ => true) =
      some ((c.data.take c.len).map fun n => n.key) ∧
    values? c (fun _ => true) =
      some ((c.data.take c.len).map fun n => n.val) ∧
    (∀ yield, ∃ n, all? c yield =
      some (((c.data.take c.len).map fun nd => (nd.key, nd.val)).take n)) ∧
    (∀ yield, ∃ n, keys? c yield =
      some (((c.data.take c.len).map fun nd => nd.key).take n)) ∧
    (∀ yield, ∃ n, values? c yield =
      some (((c.data.take c.len).map fun nd => nd.val).take n)) := by
  refine ⟨?_, ?_, ?_, ?_, ?_, ?_⟩
  · rw [all?, if_pos hle, allLoop_true]
  · rw [keys?, if_pos hle, keysLoop_true]
  · rw [values?, if_pos hle, valuesLoop_true]
  · intro y
    obtain ⟨n, hn⟩ := allLoop_take y (c.data.take c.len)
    exact ⟨n, by rw [all?, if_pos hle, hn]⟩
  · intro y
    obtain ⟨n, hn⟩ := keysLoop_take y (c.data.take c.len)
    exact ⟨n, by rw [keys?, if_pos hle, hn]⟩
  · intro y
    obtain ⟨n, hn⟩ := valuesLoop_take y (c.data.take c.len)
    exact ⟨n, by rw [values?, if_pos hle, hn]⟩


theorem C8_iteration_storage_order_witness :
    cC8w.len ≤ cC8w.data.length ∧
    (all? cC8w (fun _ _ => true) =
        some ((cC8w.data.take cC8w.len).map fun n => (n.key, n.val)) ∧
      keys? cC8w (fun _ => true) =
        some ((cC8w.data.take cC8w.len).map fun n => n.key) ∧
      values? cC8w (fun _ => true) =
        some ((cC8w.data.take cC8w.len).map fun n => n.val) ∧
      (∀ yield, ∃ n, all? cC8w yield =
        some (((cC8w.data.take cC8w.len).map fun nd => (nd.key, nd.val)).take n)) ∧
      (∀ yield, ∃ n, keys? cC8w yield =
        some (((cC8w.data.take cC8w.len).map fun nd => nd.key).take n)) ∧
      (∀ yield, ∃ n, values? cC8w yield =
        some (((cC8w.data.take cC8w.len).map fun nd => nd.val).take n))) :=
  ⟨by decide, C8_iteration_storage_order cC8w (by decide)⟩

/-- C1 (refuted by the code — evaluation of the embedding at the failing
input): `Clear` does not reset `head`/`tail`, so a cache of capacity 2 that
evicted once before `Clear` (leaving `tail = 1`) behaves differently from a
fresh cache on the refill sequence `put(20,4); put(21,5); put(22,6)`.  The
cleared cache hands the callback `(21,5)` — the entry inserted most recently
— and afterwards `get(20)` hits while `get(21)` misses; the fresh cache hands
the callback the least-recently-used `(20,4)` and afterwards `get(20)` misses
while `get(21)` hits. -/
theorem C1_cleared_differs_from_fresh :
    ((run? (newCache 2 (some noErr))
        [Op.put 10 1, Op.put 11 2, Op.put 12 3, Op.clear,
         Op.put 20 4, Op.put 21 5]).bind fun c =>
      (put? c 22 6).map fun r => r.2.2) = some [(21, 5)] ∧
    ((run? (newCache 2 (some noErr))
        [Op.put 20 4, Op.put 21 5]).bind fun c =>
      (put? c 22 6).map fun r => r.2.2) = some [(20, 4)] ∧
    ((run? (newCache 2 (some noErr))
        [Op.put 10 1, Op.put 11 2, Op.put 12 3, Op.clear,
         Op.put 20 4, Op.put 21 5, Op.put 22 6]).bind fun c =>
      some ((getOp? c 20).map (fun r => (r.1, r.2.1)),
            (getOp? c 21).map (fun r => (r.1, r.2.1)))) =
      some (some (4, true), some (0, false)) ∧
    ((run? (newCache 2 (some noErr))
        [Op.put 20 4, Op.put 21 5, Op.put 22 6]).bind fun c =>
      some ((getOp? c 20).map (fun r => (r.1, r.2.1)),
            (getOp? c 21).map (fun r => (r.1, r.2.1)))) =
      some (some (0, false), some (5, true)) :=
  ⟨rfl, rfl, rfl, rfl⟩

end GoLru
